import Mathlib

/-!
# Verification of the semantique query interpreter core

The repository ships the documentation, demo notebooks and data-layout
files of the semantique package; the query-processor implementation
itself (semantique/processor/core.py, semantique/processor/types.py and
the cache optimizer) is not part of the shipped sources. The interpreter
core is therefore modelled here from the specification: recipes, the
four reference kinds, verb application with type promotion, the
preview/cache optimizer with its look-ahead eviction, and the two-pass
caching workflow. All definitions are executable and the theorems below
settle the frozen claims against this model.
-/

namespace Semantique

/-- Modelled from the spec: the value-type taxonomy of the Type Registry
(binary, nominal, ordinal, discrete, continuous); the concrete module
semantique/processor/types.py is not in the shipped sources. -/
inductive ValueType where
  | binary
  | nominal
  | ordinal
  | discrete
  | continuous
deriving DecidableEq

/-- A categorical label dictionary: integer code to category name. -/
abbrev Labels := List (Nat × String)

/-- The canonical identity of a data-layer reference: its path in the
data-source layout. -/
abbrev RefId := List String

/-- Modelled from the spec: a labelled multi-dimensional array value
with a value type and an optional label dictionary; the array engine is
out of scope, so cells are a flat list of integer codes over the
spatio-temporal extent. -/
structure Cube where
  values : List Int
  vtype : ValueType
  labels : Labels
deriving DecidableEq

/-- Modelled from the spec: one entry of the data-source layout (the
layout JSON file of the demo), giving the layer path, its declared
value type, its label dictionary and its raw data. -/
structure Layer where
  path : RefId
  vtype : ValueType
  labels : Labels
  data : List Int
deriving DecidableEq

/-- Modelled from the spec: the tagged-union recipe tree. A processing
chain is a reference node (concept, layer, result, self) followed by
verb nodes; the verbs kept here are evaluate (with a nested expression
operand or a constant operand) and reduce, which exercise the type
promoter exactly as the spec describes. -/
inductive Expr where
  | concept (path : RefId) (prop : Option String)
  | layer (path : RefId)
  | result (name : String)
  | self
  | evaluate (chain : Expr) (op : String) (operand : Expr)
  | evalConst (chain : Expr) (op : String) (val : Int) (vt : ValueType)
  | reduce (chain : Expr) (red : String)
deriving DecidableEq

/-- Modelled from the spec: the execution context, holding the
data-source layout, the mapping (each concept path carries its named
property rules, themselves small expressions), and the spatio-temporal
extent abstracted to its cell count. -/
structure Ctx where
  layout : List Layer
  mapping : List (RefId × List (String × Expr))
  extent : Nat
deriving DecidableEq

/-- Modelled from the spec: the error taxonomy of reference-resolution
and type-promotion failures. -/
inductive QError where
  | unknownConcept (path : RefId)
  | unknownResource (path : RefId)
  | unknownResult (name : String)
  | invalidValueType (name : String) (intypes : List ValueType)
  | labelConflict
  | outOfFuel
deriving DecidableEq

/-- Modelled from the spec: the Cache of the Preview/Cache Optimizer.
The sequence is the remaining part of the preview-recorded reference
sequence; the store maps a canonical reference identity to the retained
cube and its remaining-uses counter. -/
structure Cache where
  seq : List RefId
  store : List (RefId × Cube × Nat)
deriving DecidableEq

/-- The interpreter state threaded through one execution: named results
computed so far (in recipe order), the optional active cache, the
ordered trace of layer-resolution identities, and the number of actual
data-source retrieval calls. -/
structure St where
  results : List (String × Cube)
  cache : Option Cache
  trace : List RefId
  fetches : Nat
deriving DecidableEq

/-! ## Operator / reducer registry and the type promoter -/

/-- Modelled from the spec: the callable behind a binary operator name
in the Operator Registry. The numeric kernels are out of scope; these
stand-ins are deterministic integer functions. -/
def applyOperator (op : String) (x y : Int) : Int :=
  if op = "add" then x + y
  else if op = "multiply" then x * y
  else if op = "subtract" then x - y
  else if op = "and" then if x ≠ 0 ∧ y ≠ 0 then 1 else 0
  else if op = "or" then if x ≠ 0 ∨ y ≠ 0 then 1 else 0
  else if op = "equal" then if x = y then 1 else 0
  else if op = "greater" then if y < x then 1 else 0
  else 0

/-- Modelled from the spec: the callable behind a reducer name in the
Reducer Registry, aggregating the cells of a cube into one value. -/
def applyReducer (red : String) (xs : List Int) : Int :=
  if red = "count" then Int.ofNat (xs.countP (fun x => decide (x ≠ 0)))
  else if red = "sum" then xs.foldl (· + ·) 0
  else if red = "max" then xs.foldl max 0
  else if red = "all" then if xs.all (fun x => decide (x ≠ 0)) then 1 else 0
  else 0

/-- Modelled from the spec: the declared admissible input-type tuples
("manuals") per operator and reducer, with the resulting output type;
the concrete TYPE_PROMOTION_MANUALS table of processor/types.py is not
in the shipped sources. Binary operators carry two-type tuples,
reducers one-type tuples. -/
def manualFor (name : String) : List (List ValueType × ValueType) :=
  if name = "add" ∨ name = "multiply" ∨ name = "subtract" then
    [([ValueType.discrete, ValueType.discrete], ValueType.discrete),
     ([ValueType.discrete, ValueType.continuous], ValueType.continuous),
     ([ValueType.continuous, ValueType.discrete], ValueType.continuous),
     ([ValueType.continuous, ValueType.continuous], ValueType.continuous),
     ([ValueType.binary, ValueType.binary], ValueType.discrete),
     ([ValueType.binary, ValueType.discrete], ValueType.discrete),
     ([ValueType.discrete, ValueType.binary], ValueType.discrete),
     ([ValueType.binary, ValueType.continuous], ValueType.continuous),
     ([ValueType.continuous, ValueType.binary], ValueType.continuous)]
  else if name = "and" ∨ name = "or" then
    [([ValueType.binary, ValueType.binary], ValueType.binary)]
  else if name = "equal" then
    [([ValueType.binary, ValueType.binary], ValueType.binary),
     ([ValueType.nominal, ValueType.nominal], ValueType.binary),
     ([ValueType.ordinal, ValueType.ordinal], ValueType.binary),
     ([ValueType.discrete, ValueType.discrete], ValueType.binary),
     ([ValueType.continuous, ValueType.continuous], ValueType.binary)]
  else if name = "greater" then
    [([ValueType.ordinal, ValueType.ordinal], ValueType.binary),
     ([ValueType.discrete, ValueType.discrete], ValueType.binary),
     ([ValueType.continuous, ValueType.continuous], ValueType.binary)]
  else if name = "count" then
    [([ValueType.binary], ValueType.discrete)]
  else if name = "sum" then
    [([ValueType.discrete], ValueType.discrete),
     ([ValueType.continuous], ValueType.continuous),
     ([ValueType.binary], ValueType.discrete)]
  else if name = "max" then
    [([ValueType.ordinal], ValueType.ordinal),
     ([ValueType.discrete], ValueType.discrete),
     ([ValueType.continuous], ValueType.continuous),
     ([ValueType.binary], ValueType.binary)]
  else if name = "all" then
    [([ValueType.binary], ValueType.binary)]
  else []

/-- Modelled from the spec: the operators declared commutative. -/
def commutativeOperators : List String :=
  ["add", "multiply", "and", "or", "equal"]

/-- Ordered, first-match lookup of a manual entry for the actual input
types. -/
def findEntry (entries : List (List ValueType × ValueType))
    (itypes : List ValueType) : Option ValueType :=
  (entries.find? (fun e => decide (e.1 = itypes))).map (·.2)

/-- Two label dictionaries conflict when the same integer code maps to
different category names across them. -/
def hasConflict (d1 d2 : Labels) : Bool :=
  d1.any (fun p => d2.any (fun q => decide (p.1 = q.1) && decide (p.2 ≠ q.2)))

/-- The union of two compatible label dictionaries (left-biased, as a
finite map). -/
def unionLabels (d1 d2 : Labels) : Labels :=
  d1 ++ d2.filter (fun q => !(d1.any (fun p => decide (p.1 = q.1))))

/-- Modelled from the spec: merging the label dictionaries of composed
categorical cubes; fails with a typed error exactly on a conflicting
code, otherwise yields the union. -/
def mergeLabels (d1 d2 : Labels) : Except QError Labels :=
  if hasConflict d1 d2 then .error .labelConflict
  else .ok (unionLabels d1 d2)

/-- Merge a list of input label dictionaries left to right. -/
def mergeLabelList : List Labels → Except QError Labels
  | [] => .ok []
  | [d] => .ok d
  | d :: rest =>
    match mergeLabelList rest with
    | .error e => .error e
    | .ok d2 => mergeLabels d d2

/-- Modelled from the spec: the Type Promoter contract
check(name, input types, input labels) yielding the output type and
output labels, or failing with InvalidValueTypeError naming the
operator/reducer and the offending input types. -/
def check (name : String) (itypes : List ValueType)
    (ilabels : List Labels) : Except QError (ValueType × Labels) :=
  match findEntry (manualFor name) itypes with
  | none => .error (.invalidValueType name itypes)
  | some oty =>
    match mergeLabelList ilabels with
    | .error e => .error e
    | .ok d => .ok (oty, d)

/-! ## Cubes -/

/-- Modelled from the spec: the default spatio-temporal extent cube, a
cube of value 1 defined over the full requested extent (the execution
trace shows it as a nominal cube labelled feature_1). -/
def extentCube (n : Nat) : Cube :=
  ⟨List.replicate n 1, ValueType.nominal, [(1, "feature_1")]⟩

/-- Logical AND of two binary cubes, cell by cell. -/
def cubeAnd (a b : Cube) : Cube :=
  ⟨List.zipWith (fun x y => if x ≠ 0 ∧ y ≠ 0 then 1 else 0) a.values b.values,
   ValueType.binary, []⟩

/-- Fold a nonempty list of property cubes with logical AND; concept
truth requires all properties to hold. -/
def andAll : List Cube → Cube
  | [] => ⟨[], ValueType.binary, []⟩
  | c :: cs => cs.foldl cubeAnd c

/-! ## Layer resolution and the cache -/

/-- Look up a layer path in the data-source layout. -/
def lookupLayer (layout : List Layer) (p : RefId) : Option Layer :=
  layout.find? (fun l => decide (l.path = p))

/-- Cells of a layer coerced to an extent of n cells (retrieval is
deterministic in the path and the extent). -/
def extractVals (n : Nat) (xs : List Int) : List Int :=
  xs.take n ++ List.replicate (n - xs.length) 0

/-- Modelled from the spec: the data-source collaborator retrieval call,
rasterizing a layer over the context extent. -/
def retrieve (ctx : Ctx) (l : Layer) : Cube :=
  ⟨extractVals ctx.extent l.data, l.vtype, l.labels⟩

/-- Look up a reference identity in the cache store. -/
def storeGet (store : List (RefId × Cube × Nat)) (r : RefId) :
    Option (Cube × Nat) :=
  (store.find? (fun e => decide (e.1 = r))).map (·.2)

/-- Evict a reference identity from the cache store. -/
def storeErase (store : List (RefId × Cube × Nat)) (r : RefId) :
    List (RefId × Cube × Nat) :=
  store.filter (fun e => !decide (e.1 = r))

/-- Replace the entry of a reference identity in the cache store. -/
def storeSet (store : List (RefId × Cube × Nat)) (r : RefId) (v : Cube)
    (k : Nat) : List (RefId × Cube × Nat) :=
  storeErase store r ++ [(r, v, k)]

/-- The number of future uses of an identity in the remaining reference
sequence. -/
def futureUses (seq : List RefId) (r : RefId) : Nat :=
  seq.countP (fun q => decide (q = r))

/-- Advance the remaining preview sequence past the current resolution:
consume the head when it matches, leave the sequence on a divergent
lookup. -/
def advanceSeq (seq : List RefId) (r : RefId) : List RefId :=
  if seq.head? = some r then seq.tail else seq

/-- Modelled from the spec: Resource/Layer resolution by the Reference
Resolver. The canonical identity is appended to the trace before
resolving. Without a cache the layer is retrieved from the data source.
With an active cache: a stored identity with remaining-uses greater
than zero returns the retained value and decrements the counter,
evicting the entry when it reaches zero; otherwise the layer is
retrieved and stored exactly when its future-use count in the remaining
sequence is positive, initializing the counter to that count. -/
def resolveLayer (ctx : Ctx) (path : RefId) (s : St) :
    Except QError (Cube × St) :=
  let s1 : St := { s with trace := s.trace ++ [path] }
  match lookupLayer ctx.layout path with
  | none => .error (.unknownResource path)
  | some l =>
    match s1.cache with
    | none => .ok (retrieve ctx l, { s1 with fetches := s1.fetches + 1 })
    | some c =>
      let rest := advanceSeq c.seq path
      match storeGet c.store path with
      | some (v, Nat.succ k) =>
        let st2 := if k = 0 then storeErase c.store path
                   else storeSet c.store path v k
        .ok (v, { s1 with cache := some ⟨rest, st2⟩ })
      | _ =>
        let v := retrieve ctx l
        let fu := futureUses rest path
        let st2 := if 0 < fu then storeSet c.store path v fu else c.store
        .ok (v, { s1 with cache := some ⟨rest, st2⟩,
                          fetches := s1.fetches + 1 })

/-! ## Concept resolution and the interpreter -/

/-- Modelled from the spec: look up a concept path (optionally one of
its named properties) in the mapping/ontology; yields the rule
definitions, or nothing when the path (or requested property) has no
matching entry. -/
def conceptRules (m : List (RefId × List (String × Expr))) (path : RefId)
    (prop : Option String) : Option (List (String × Expr)) :=
  match (m.find? (fun e => decide (e.1 = path))).map (·.2) with
  | none => none
  | some rules =>
    match prop with
    | none => if rules.isEmpty then none else some rules
    | some p =>
      let sel := rules.filter (fun r => decide (r.1 = p))
      if sel.isEmpty then none else some sel

/-- Run the rule expressions of a concept in order, threading the
interpreter state, and collect their cubes. -/
def runRules (step : Expr → St → Except QError (Cube × St)) :
    List (String × Expr) → St → Except QError (List Cube × St)
  | [], s => .ok ([], s)
  | r :: rest, s =>
    match step r.2 s with
    | .error e => .error e
    | .ok (c, s1) =>
      match runRules step rest s1 with
      | .error e => .error e
      | .ok (cs, s2) => .ok (c :: cs, s2)

/-- Modelled from the spec: the handler-dispatch evaluator of the Recipe
Interpreter over one processing-chain expression. The active evaluation
object is the second argument; nested operands are resolved with the
current chain value as their local self. Recursion through mapping
rules is bounded by fuel (a cyclic ontology would not terminate). -/
def evalExpr : Nat → Ctx → Cube → Expr → St → Except QError (Cube × St)
  | 0, _, _, _, _ => .error .outOfFuel
  | fuel + 1, ctx, active, e, s =>
    match e with
    | .self => .ok (active, s)
    | .result n =>
      match s.results.find? (fun r => decide (r.1 = n)) with
      | some r => .ok (r.2, s)
      | none => .error (.unknownResult n)
    | .layer path => resolveLayer ctx path s
    | .concept path prop =>
      match conceptRules ctx.mapping path prop with
      | none => .error (.unknownConcept path)
      | some rules =>
        match runRules (fun e2 s2 => evalExpr fuel ctx active e2 s2) rules s with
        | .error e2 => .error e2
        | .ok (cs, s2) => .ok (andAll cs, s2)
    | .evaluate chain op operand =>
      match evalExpr fuel ctx active chain s with
      | .error e2 => .error e2
      | .ok (a, s1) =>
        match evalExpr fuel ctx a operand s1 with
        | .error e2 => .error e2
        | .ok (b, s2) =>
          match check op [a.vtype, b.vtype] [a.labels, b.labels] with
          | .error e2 => .error e2
          | .ok (oty, olbl) =>
            .ok (⟨List.zipWith (applyOperator op) a.values b.values,
                  oty, olbl⟩, s2)
    | .evalConst chain op v vt =>
      match evalExpr fuel ctx active chain s with
      | .error e2 => .error e2
      | .ok (a, s1) =>
        match check op [a.vtype, vt] [a.labels, []] with
        | .error e2 => .error e2
        | .ok (oty, olbl) =>
          .ok (⟨a.values.map (fun x => applyOperator op x v), oty, olbl⟩, s1)
    | .reduce chain red =>
      match evalExpr fuel ctx active chain s with
      | .error e2 => .error e2
      | .ok (a, s1) =>
        match check red [a.vtype] [a.labels] with
        | .error e2 => .error e2
        | .ok (oty, olbl) =>
          .ok (⟨[applyReducer red a.values], oty, olbl⟩, s1)

/-- A recipe: an ordered mapping from result name to processing chain. -/
abbrev Recipe := List (String × Expr)

/-- Modelled from the spec: iterate the result definitions in recipe
order; each chain starts from the default active evaluation object (the
extent cube) and its final value is stored under the result name,
becoming available to later Result references. Any failure aborts the
whole execution. -/
def execEntries (fuel : Nat) (ctx : Ctx) : Recipe → St → Except QError St
  | [], s => .ok s
  | (n, e) :: rest, s =>
    match evalExpr fuel ctx (extentCube ctx.extent) e s with
    | .error er => .error er
    | .ok (c, s1) =>
      execEntries fuel ctx rest { s1 with results := s1.results ++ [(n, c)] }

/-- The initial interpreter state for one pass. -/
def initSt (c : Option Cache) : St := ⟨[], c, [], 0⟩

/-- Modelled from the spec: execute(recipe, context) without caching,
returning the named results in recipe order. -/
def execute (fuel : Nat) (ctx : Ctx) (recipe : Recipe) :
    Except QError (List (String × Cube)) :=
  (execEntries fuel ctx recipe (initSt none)).map (·.results)

/-- The preview pass coerces the spatial extent to a fixed 5 by 5
grid. -/
def previewSize : Nat := 5 * 5

/-- The preview context: same layout and mapping, minimal extent. -/
def previewCtx (ctx : Ctx) : Ctx := { ctx with extent := previewSize }

/-- Modelled from the spec: the manual preview step of the demo
notebook, running the full interpreter over the preview context with
caching disabled and returning the results together with the primed
cache (the recorded reference sequence with an empty store). -/
def previewRun (fuel : Nat) (ctx : Ctx) (recipe : Recipe) :
    Except QError (List (String × Cube) × Cache) :=
  (execEntries fuel (previewCtx ctx) recipe (initSt none)).map
    (fun s => (s.results, ⟨s.trace, []⟩))

/-- Modelled from the spec: the one-step caching workflow behind the
caching context flag: a preview pass over the coerced extent records
the reference sequence, then the real pass runs with the primed
cache. -/
def executeCached (fuel : Nat) (ctx : Ctx) (recipe : Recipe) :
    Except QError (List (String × Cube)) :=
  match execEntries fuel (previewCtx ctx) recipe (initSt none) with
  | .error er => .error er
  | .ok sp =>
    (execEntries fuel ctx recipe (initSt (some ⟨sp.trace, []⟩))).map
      (·.results)

/-- Modelled from the spec: recipe execution with the caching context
flag; when true the two-pass preview plus cached execution sequence is
performed instead of a single pass. -/
def executeQuery (fuel : Nat) (ctx : Ctx) (recipe : Recipe) :
    Bool → Except QError (List (String × Cube))
  | true => executeCached fuel ctx recipe
  | false => execute fuel ctx recipe

/-- The manual two-step workflow of the demo notebook: run the preview,
take its resulting cache, and pass that cache into a second
full-resolution execution. -/
def manualTwoStep (fuel : Nat) (ctx : Ctx) (recipe : Recipe) :
    Except QError (List (String × Cube)) :=
  match previewRun fuel ctx recipe with
  | .error er => .error er
  | .ok (_, c) =>
    (execEntries fuel ctx recipe (initSt (some c))).map (·.results)

/-- A demo fixture mirroring the shipped layout file: the SIAM colortype
layer with its label dictionary and two reflectance bands. -/
def demoLayout : List Layer :=
  [⟨["appearance", "colortype"], ValueType.ordinal,
     [(1, "SVHNIR"), (21, "DPWASH")], [29, 21, 4, 21, 1, 3]⟩,
   ⟨["reflectance", "s2_band02"], ValueType.continuous, [], [10, 20, 30, 40]⟩,
   ⟨["reflectance", "s2_band04"], ValueType.continuous, [], [5, 6, 7, 8]⟩]

/-- A demo mapping: water is defined by a single color property, lake by
a color property and a texture property. -/
def demoMapping : List (RefId × List (String × Expr)) :=
  [(["entity", "water"],
     [("color", Expr.evalConst (Expr.layer ["appearance", "colortype"])
        "equal" 21 ValueType.ordinal)]),
   (["entity", "lake"],
     [("color", Expr.evalConst (Expr.layer ["appearance", "colortype"])
        "equal" 21 ValueType.ordinal),
      ("texture", Expr.evalConst (Expr.layer ["reflectance", "s2_band02"])
        "greater" 15 ValueType.continuous)])]

/-- A demo context over a four-cell extent. -/
def demoCtx : Ctx := ⟨demoLayout, demoMapping, 4⟩

/-! ## Relations for the invariance proofs

Control flow of the interpreter depends only on reference names, value
types and label dictionaries, never on cell values. The relations below
capture exactly that: two runs over contexts differing only in extent
stay in lockstep. -/

/-- Two cubes agree on everything the interpreter's control flow can
observe: value type and label dictionary (cell values may differ, e.g.
between the preview extent and the real extent). -/
abbrev CubeRel (a b : Cube) : Prop := a.vtype = b.vtype ∧ a.labels = b.labels

/-- Result lists agree on names and on the observable part of each
cube. -/
abbrev ResultsRel (r1 r2 : List (String × Cube)) : Prop :=
  List.Forall₂ (fun p q => p.1 = q.1 ∧ CubeRel p.2 q.2) r1 r2

/-- Interpreter states of two cache-free passes in lockstep. -/
abbrev StRelI (s1 s2 : St) : Prop :=
  ResultsRel s1.results s2.results ∧ s1.trace = s2.trace ∧
    s1.cache = none ∧ s2.cache = none

/-- Outcomes of two cache-free passes in lockstep: identical errors, or
related cubes and states. -/
abbrev OutRelI (o1 o2 : Except QError (Cube × St)) : Prop :=
  (∃ e, o1 = .error e ∧ o2 = .error e) ∨
    (∃ c1 t1 c2 t2, o1 = .ok (c1, t1) ∧ o2 = .ok (c2, t2) ∧
      CubeRel c1 c2 ∧ StRelI t1 t2)

/-- Outcomes of rule-list evaluation in lockstep. -/
abbrev RulesRelI (o1 o2 : Except QError (List Cube × St)) : Prop :=
  (∃ e, o1 = .error e ∧ o2 = .error e) ∨
    (∃ cs1 t1 cs2 t2, o1 = .ok (cs1, t1) ∧ o2 = .ok (cs2, t2) ∧
      List.Forall₂ CubeRel cs1 cs2 ∧ StRelI t1 t2)

theorem find_results_rel {r1 r2 : List (String × Cube)} (h : ResultsRel r1 r2)
    (n : String) :
    (r1.find? (fun r => decide (r.1 = n)) = none ∧
      r2.find? (fun r => decide (r.1 = n)) = none) ∨
    (∃ p q, r1.find? (fun r => decide (r.1 = n)) = some p ∧
      r2.find? (fun r => decide (r.1 = n)) = some q ∧ CubeRel p.2 q.2) := by
  induction h with
  | nil => exact Or.inl ⟨rfl, rfl⟩
  | @cons p q l1 l2 hpq hrest ih =>
    obtain ⟨hname, hcube⟩ := hpq
    by_cases hn : p.1 = n
    · refine Or.inr ⟨p, q, ?_, ?_, hcube⟩
      · rw [List.find?_cons_of_pos _ (by simpa using hn)]
      · rw [List.find?_cons_of_pos _ (by simpa using hname.symm.trans hn)]
    · have hq : ¬ q.1 = n := fun hx => hn (hname.trans hx)
      rw [List.find?_cons_of_neg _ (by simpa using hn),
        List.find?_cons_of_neg _ (by simpa using hq)]
      exact ih

theorem cubeRel_foldl {l1 l2 : List Cube} (h : List.Forall₂ CubeRel l1 l2) :
    ∀ a1 a2, CubeRel a1 a2 →
      CubeRel (l1.foldl cubeAnd a1) (l2.foldl cubeAnd a2) := by
  induction h with
  | nil => intro a1 a2 ha; exact ha
  | cons hc ht ih =>
    intro a1 a2 _
    exact ih _ _ ⟨rfl, rfl⟩

theorem cubeRel_andAll {cs1 cs2 : List Cube}
    (h : List.Forall₂ CubeRel cs1 cs2) : CubeRel (andAll cs1) (andAll cs2) := by
  cases h with
  | nil => exact ⟨rfl, rfl⟩
  | cons hc ht =>
    simp only [andAll]
    exact cubeRel_foldl ht _ _ hc

/-- Resolution of a layer reference without an active cache: a layout
miss is an UnknownResourceError, a hit retrieves from the data source,
appending the identity to the trace. -/
theorem resolveLayer_nocache {ctx : Ctx} {path : RefId} {s : St}
    (hc : s.cache = none) :
    resolveLayer ctx path s =
      match lookupLayer ctx.layout path with
      | none => .error (.unknownResource path)
      | some l => .ok (retrieve ctx l,
          { s with trace := s.trace ++ [path], fetches := s.fetches + 1 }) := by
  unfold resolveLayer
  cases hfind : lookupLayer ctx.layout path with
  | none => rfl
  | some l => simp [hc]

/-- The central extent-invariance lemma: over two contexts sharing the
layout and the mapping but differing in extent (as the preview pass and
the real pass do), evaluation takes the same control-flow path — same
errors, same reference trace, and result cubes related by value type
and labels. -/
theorem evalExpr_extent_rel (ctx1 ctx2 : Ctx)
    (hl : ctx1.layout = ctx2.layout) (hm : ctx1.mapping = ctx2.mapping) :
    ∀ fuel (e : Expr) (a1 a2 : Cube) (s1 s2 : St),
      CubeRel a1 a2 → StRelI s1 s2 →
      OutRelI (evalExpr fuel ctx1 a1 e s1) (evalExpr fuel ctx2 a2 e s2) := by
  intro fuel
  induction fuel with
  | zero =>
    intro e a1 a2 s1 s2 _ _
    exact Or.inl ⟨.outOfFuel, rfl, rfl⟩
  | succ n ih =>
    have ihR : ∀ (rules : List (String × Expr)) (a1 a2 : Cube) (s1 s2 : St),
        CubeRel a1 a2 → StRelI s1 s2 →
        RulesRelI
          (runRules (fun e2 s2x => evalExpr n ctx1 a1 e2 s2x) rules s1)
          (runRules (fun e2 s2x => evalExpr n ctx2 a2 e2 s2x) rules s2) := by
      intro rules
      induction rules with
      | nil =>
        intro a1 a2 s1 s2 _ hs
        exact Or.inr ⟨[], s1, [], s2, rfl, rfl, List.Forall₂.nil, hs⟩
      | cons r rest ihr =>
        intro a1 a2 s1 s2 ha hs
        simp only [runRules]
        rcases ih r.2 a1 a2 s1 s2 ha hs with ⟨er, he1, he2⟩ |
          ⟨c1, t1, c2, t2, ho1, ho2, hc, ht⟩
        · simp only [he1, he2]
          exact Or.inl ⟨er, rfl, rfl⟩
        · simp only [ho1, ho2]
          rcases ihr a1 a2 t1 t2 ha ht with ⟨er, he1, he2⟩ |
            ⟨cs1, u1, cs2, u2, hr1, hr2, hcs, hu⟩
          · simp only [he1, he2]
            exact Or.inl ⟨er, rfl, rfl⟩
          · simp only [hr1, hr2]
            exact Or.inr ⟨c1 :: cs1, u1, c2 :: cs2, u2, rfl, rfl,
              List.Forall₂.cons hc hcs, hu⟩
    intro e a1 a2 s1 s2 ha hs
    obtain ⟨hres, htr, hcn1, hcn2⟩ := hs
    cases e with
    | self =>
      exact Or.inr ⟨a1, s1, a2, s2, rfl, rfl, ha, hres, htr, hcn1, hcn2⟩
    | result nm =>
      simp only [evalExpr]
      rcases find_results_rel hres nm with ⟨hn1, hn2⟩ | ⟨p, q, hp, hq, hpq⟩
      · simp only [hn1, hn2]
        exact Or.inl ⟨.unknownResult nm, rfl, rfl⟩
      · simp only [hp, hq]
        exact Or.inr ⟨p.2, s1, q.2, s2, rfl, rfl, hpq, hres, htr, hcn1, hcn2⟩
    | layer path =>
      simp only [evalExpr]
      rw [resolveLayer_nocache hcn1, resolveLayer_nocache hcn2, hl]
      cases hfind : lookupLayer ctx2.layout path with
      | none => exact Or.inl ⟨.unknownResource path, rfl, rfl⟩
      | some l =>
        refine Or.inr ⟨_, _, _, _, rfl, rfl, ⟨rfl, rfl⟩, hres, ?_, hcn1, hcn2⟩
        simp [htr]
    | concept path prop =>
      simp only [evalExpr]
      rw [hm]
      cases hcr : conceptRules ctx2.mapping path prop with
      | none => exact Or.inl ⟨.unknownConcept path, rfl, rfl⟩
      | some rules =>
        rcases ihR rules a1 a2 s1 s2 ha ⟨hres, htr, hcn1, hcn2⟩ with
          ⟨er, he1, he2⟩ | ⟨cs1, t1, cs2, t2, hr1, hr2, hcs, ht⟩
        · simp only [he1, he2]
          exact Or.inl ⟨er, rfl, rfl⟩
        · simp only [hr1, hr2]
          obtain ⟨htres, httr, htc1, htc2⟩ := ht
          exact Or.inr ⟨andAll cs1, t1, andAll cs2, t2, rfl, rfl,
            cubeRel_andAll hcs, htres, httr, htc1, htc2⟩
    | evaluate chain op rhs =>
      simp only [evalExpr]
      rcases ih chain a1 a2 s1 s2 ha ⟨hres, htr, hcn1, hcn2⟩ with
        ⟨er, he1, he2⟩ | ⟨c1, t1, c2, t2, ho1, ho2, hcc, ht⟩
      · simp only [he1, he2]
        exact Or.inl ⟨er, rfl, rfl⟩
      · simp only [ho1, ho2]
        rcases ih rhs c1 c2 t1 t2 hcc ht with
          ⟨er, he1, he2⟩ | ⟨b1, u1, b2, u2, hb1, hb2, hbb, hu⟩
        · simp only [he1, he2]
          exact Or.inl ⟨er, rfl, rfl⟩
        · simp only [hb1, hb2]
          obtain ⟨hvt, hlb⟩ := hcc
          obtain ⟨hvtb, hlbb⟩ := hbb
          rw [hvt, hlb, hvtb, hlbb]
          cases hchk : check op [c2.vtype, b2.vtype] [c2.labels, b2.labels] with
          | error er => exact Or.inl ⟨er, rfl, rfl⟩
          | ok ol =>
            rcases ol with ⟨oty, olbl⟩
            obtain ⟨hures, hutr, huc1, huc2⟩ := hu
            exact Or.inr ⟨_, u1, _, u2, rfl, rfl, ⟨rfl, rfl⟩,
              hures, hutr, huc1, huc2⟩
    | evalConst chain op v vt =>
      simp only [evalExpr]
      rcases ih chain a1 a2 s1 s2 ha ⟨hres, htr, hcn1, hcn2⟩ with
        ⟨er, he1, he2⟩ | ⟨c1, t1, c2, t2, ho1, ho2, hcc, ht⟩
      · simp only [he1, he2]
        exact Or.inl ⟨er, rfl, rfl⟩
      · simp only [ho1, ho2]
        obtain ⟨hvt, hlb⟩ := hcc
        rw [hvt, hlb]
        cases hchk : check op [c2.vtype, vt] [c2.labels, []] with
        | error er => exact Or.inl ⟨er, rfl, rfl⟩
        | ok ol =>
          rcases ol with ⟨oty, olbl⟩
          obtain ⟨htres, httr, htc1, htc2⟩ := ht
          exact Or.inr ⟨_, t1, _, t2, rfl, rfl, ⟨rfl, rfl⟩,
            htres, httr, htc1, htc2⟩
    | reduce chain red =>
      simp only [evalExpr]
      rcases ih chain a1 a2 s1 s2 ha ⟨hres, htr, hcn1, hcn2⟩ with
        ⟨er, he1, he2⟩ | ⟨c1, t1, c2, t2, ho1, ho2, hcc, ht⟩
      · simp only [he1, he2]
        exact Or.inl ⟨er, rfl, rfl⟩
      · simp only [ho1, ho2]
        obtain ⟨hvt, hlb⟩ := hcc
        rw [hvt, hlb]
        cases hchk : check red [c2.vtype] [c2.labels] with
        | error er => exact Or.inl ⟨er, rfl, rfl⟩
        | ok ol =>
          rcases ol with ⟨oty, olbl⟩
          obtain ⟨htres, httr, htc1, htc2⟩ := ht
          exact Or.inr ⟨_, t1, _, t2, rfl, rfl, ⟨rfl, rfl⟩,
            htres, httr, htc1, htc2⟩

end Semantique

deriving instance DecidableEq for Except

namespace Semantique

/-! ## Helper lemmas: label dictionaries -/

theorem lookup_cons (p : Nat × String) (rest : Labels) (c : Nat) :
    (p :: rest).lookup c = if c = p.1 then some p.2 else rest.lookup c := by
  by_cases h : c = p.1
  · rw [if_pos h]
    simp only [List.lookup]
    rw [show (c == p.1) = true by simpa using h]
  · rw [if_neg h]
    simp only [List.lookup]
    rw [show (c == p.1) = false by simpa using h]

theorem lookup_append (l1 l2 : Labels) (c : Nat) :
    (l1 ++ l2).lookup c = ((l1.lookup c).orElse (fun _ => l2.lookup c)) := by
  induction l1 with
  | nil => rfl
  | cons p rest ih =>
    rw [List.cons_append, lookup_cons, lookup_cons]
    by_cases h : c = p.1
    · rw [if_pos h, if_pos h]; rfl
    · rw [if_neg h, if_neg h, ih]

theorem lookup_eq_none_iff (d : Labels) (c : Nat) :
    d.lookup c = none ↔ ∀ p ∈ d, p.1 ≠ c := by
  induction d with
  | nil => simp
  | cons p rest ih =>
    rw [lookup_cons]
    by_cases h : c = p.1
    · rw [if_pos h]
      simp only [List.mem_cons]
      constructor
      · intro hx; exact absurd hx (by simp)
      · intro hall; exact absurd h.symm (hall p (Or.inl rfl))
    · rw [if_neg h, ih]
      simp only [List.mem_cons]
      constructor
      · rintro hall q (rfl | hq)
        · exact fun hc => h hc.symm
        · exact hall q hq
      · intro hall q hq; exact hall q (Or.inr hq)

theorem lookup_mem {d : Labels} {c : Nat} {n : String}
    (h : d.lookup c = some n) : (c, n) ∈ d := by
  induction d with
  | nil => exact absurd h (by simp [List.lookup])
  | cons p rest ih =>
    rw [lookup_cons] at h
    by_cases hc : c = p.1
    · rw [if_pos hc] at h
      have hn : n = p.2 := by injection h with h2; exact h2.symm
      subst hn; rw [hc]
      simp [Prod.mk.eta]
    · rw [if_neg hc] at h
      exact List.mem_cons_of_mem _ (ih h)

theorem hasConflict_iff (d1 d2 : Labels) :
    hasConflict d1 d2 = true ↔
      ∃ c n1 n2, (c, n1) ∈ d1 ∧ (c, n2) ∈ d2 ∧ n1 ≠ n2 := by
  simp only [hasConflict, List.any_eq_true, Bool.and_eq_true, decide_eq_true_eq]
  constructor
  · rintro ⟨p, hp, q, hq, heq, hne⟩
    exact ⟨p.1, p.2, q.2, hp, heq ▸ hq, hne⟩
  · rintro ⟨c, n1, n2, h1, h2, hne⟩
    exact ⟨(c, n1), h1, (c, n2), h2, rfl, hne⟩

theorem hasConflict_symm (d1 d2 : Labels) :
    hasConflict d1 d2 = hasConflict d2 d1 := by
  rcases h1 : hasConflict d1 d2 with _ | _ <;>
    rcases h2 : hasConflict d2 d1 with _ | _ <;> try rfl
  · obtain ⟨c, n1, n2, hm1, hm2, hne⟩ := (hasConflict_iff d2 d1).mp h2
    have := (hasConflict_iff d1 d2).mpr ⟨c, n2, n1, hm2, hm1, hne.symm⟩
    rw [h1] at this; cases this
  · obtain ⟨c, n1, n2, hm1, hm2, hne⟩ := (hasConflict_iff d1 d2).mp h1
    have := (hasConflict_iff d2 d1).mpr ⟨c, n2, n1, hm2, hm1, hne.symm⟩
    rw [h2] at this; cases this

theorem lookup_filter_keyless (d : Labels) (c : Nat)
    (p : Nat × String → Bool) (hp : ∀ q ∈ d, q.1 = c → p q = true) :
    (d.filter p).lookup c = d.lookup c := by
  induction d with
  | nil => rfl
  | cons q rest ih =>
    have ihx := ih (fun r hr => hp r (List.mem_cons_of_mem _ hr))
    by_cases hqc : q.1 = c
    · have hq : p q = true := hp q (List.mem_cons_self _ _) hqc
      simp only [List.filter, hq]
      rw [lookup_cons, lookup_cons]
      rw [if_pos hqc.symm, if_pos hqc.symm]
    · rcases hq : p q with _ | _
      · simp only [List.filter, hq]
        rw [ihx, lookup_cons, if_neg (fun hc => hqc hc.symm)]
      · simp only [List.filter, hq]
        rw [lookup_cons, lookup_cons, if_neg (fun hc => hqc hc.symm),
          if_neg (fun hc => hqc hc.symm), ihx]

theorem lookup_unionLabels_of_none {d1 : Labels} {c : Nat}
    (h : d1.lookup c = none) (d2 : Labels) :
    (unionLabels d1 d2).lookup c = d2.lookup c := by
  unfold unionLabels
  rw [lookup_append, h]
  have hnone : ∀ p ∈ d1, p.1 ≠ c := (lookup_eq_none_iff d1 c).mp h
  have hfil : (d2.filter
      (fun q => !(d1.any (fun p => decide (p.1 = q.1))))).lookup c
      = d2.lookup c := by
    refine lookup_filter_keyless d2 c _ ?_
    intro q hq hqc
    simp only [Bool.not_eq_true']
    rw [List.any_eq_false]
    intro p hp
    simp only [decide_eq_true_eq]
    rw [hqc]
    exact hnone p hp
  exact hfil

theorem lookup_unionLabels_of_some {d1 : Labels} {c : Nat} {n : String}
    (h : d1.lookup c = some n) (d2 : Labels) :
    (unionLabels d1 d2).lookup c = some n := by
  unfold unionLabels
  rw [lookup_append, h]
  rfl

theorem lookup_unionLabels (d1 d2 : Labels) (c : Nat) :
    (unionLabels d1 d2).lookup c =
      ((d1.lookup c).orElse (fun _ => d2.lookup c)) := by
  rcases h : d1.lookup c with _ | n
  · rw [lookup_unionLabels_of_none h d2]; rfl
  · rw [lookup_unionLabels_of_some h d2]; rfl

/-! ## Helper lemmas: the cache store -/

theorem find_storeErase_self (st : List (RefId × Cube × Nat)) (r : RefId) :
    (storeErase st r).find? (fun e => decide (e.1 = r)) = none := by
  unfold storeErase
  rw [List.find?_eq_none]
  intro e he
  have := (List.mem_filter.mp he).2
  simpa using this

theorem storeGet_storeErase_self (st : List (RefId × Cube × Nat)) (r : RefId) :
    storeGet (storeErase st r) r = none := by
  unfold storeGet
  rw [find_storeErase_self]
  rfl

theorem storeGet_storeSet_self (st : List (RefId × Cube × Nat)) (r : RefId)
    (v : Cube) (k : Nat) : storeGet (storeSet st r v k) r = some (v, k) := by
  unfold storeSet storeGet
  rw [List.find?_append, find_storeErase_self]
  simp [List.find?]

theorem storeGet_mem {st : List (RefId × Cube × Nat)} {r : RefId}
    {v : Cube} {k : Nat} (h : storeGet st r = some (v, k)) : (r, v, k) ∈ st := by
  unfold storeGet at h
  rcases Option.map_eq_some.mp h with ⟨e, hfind, he2⟩
  have hmem := List.mem_of_find?_eq_some hfind
  have hpred := List.find?_some hfind
  have h1 : e.1 = r := by simpa using hpred
  have : e = (r, v, k) := by
    rcases e with ⟨e1, e2⟩
    simp only at h1 he2
    rw [h1, he2]
  exact this ▸ hmem

theorem mem_storeErase {st : List (RefId × Cube × Nat)} {r : RefId}
    {e : RefId × Cube × Nat} (h : e ∈ storeErase st r) : e ∈ st :=
  (List.mem_filter.mp h).1

theorem mem_storeSet {st : List (RefId × Cube × Nat)} {r : RefId} {v : Cube}
    {k : Nat} {e : RefId × Cube × Nat} (h : e ∈ storeSet st r v k) :
    e ∈ st ∨ e = (r, v, k) := by
  rcases List.mem_append.mp h with h1 | h1
  · exact Or.inl (mem_storeErase h1)
  · simp only [List.mem_singleton] at h1
    exact Or.inr h1

/-! ## Helper lemmas: result lookup and recipe splitting -/

theorem find_name_none_iff (rs : List (String × Cube)) (n : String) :
    rs.find? (fun r => decide (r.1 = n)) = none ↔ n ∉ rs.map Prod.fst := by
  rw [List.find?_eq_none]
  constructor
  · intro hall hmem
    rcases List.mem_map.mp hmem with ⟨p, hp, hfst⟩
    exact hall p hp (by simpa using hfst)
  · intro hnm p hp
    simp only [decide_eq_true_eq]
    intro hfst
    exact hnm (hfst ▸ List.mem_map_of_mem Prod.fst hp)

theorem find_name_mem {rs : List (String × Cube)} {n : String}
    (h : n ∈ rs.map Prod.fst) :
    ∃ p, rs.find? (fun r => decide (r.1 = n)) = some p ∧ p.1 = n := by
  rcases hf : rs.find? (fun r => decide (r.1 = n)) with _ | p
  · rw [find_name_none_iff] at hf; exact absurd h hf
  · exact ⟨p, hf, by simpa using List.find?_some hf⟩

theorem execEntries_append (fuel : Nat) (ctx : Ctx) (r1 r2 : Recipe) (s : St) :
    execEntries fuel ctx (r1 ++ r2) s =
      match execEntries fuel ctx r1 s with
      | .error e => .error e
      | .ok s1 => execEntries fuel ctx r2 s1 := by
  induction r1 generalizing s with
  | nil => simp [execEntries]
  | cons p rest ih =>
    rcases p with ⟨n, e⟩
    simp only [List.cons_append, execEntries]
    rcases evalExpr fuel ctx (extentCube ctx.extent) e s with _ | ⟨c, s1⟩
    · rfl
    · exact ih _

/-! ## Relations for the cache-transparency proof -/

/-- The cache store is faithful: every retained cube is exactly what a
fresh resolution of its identity over the real extent would produce. -/
abbrev StoreInv (ctx : Ctx) (store : List (RefId × Cube × Nat)) : Prop :=
  ∀ r v k, (r, v, k) ∈ store →
    ∃ l, lookupLayer ctx.layout r = some l ∧ v = retrieve ctx l

/-- A cache-free state and a cached state in lockstep: same results,
same trace, and a faithful store. -/
abbrev StRelC (ctx : Ctx) (s sc : St) : Prop :=
  sc.results = s.results ∧ sc.trace = s.trace ∧ s.cache = none ∧
    ∃ c, sc.cache = some c ∧ StoreInv ctx c.store

/-- Outcomes of a cache-free and a cached pass in lockstep: identical
errors, or the very same cube with related states. -/
abbrev OutRelC (ctx : Ctx) (o1 o2 : Except QError (Cube × St)) : Prop :=
  (∃ e, o1 = .error e ∧ o2 = .error e) ∨
    (∃ cb t1 t2, o1 = .ok (cb, t1) ∧ o2 = .ok (cb, t2) ∧ StRelC ctx t1 t2)

/-- Outcomes of rule-list evaluation for the cached comparison. -/
abbrev RulesRelC (ctx : Ctx) (o1 o2 : Except QError (List Cube × St)) : Prop :=
  (∃ e, o1 = .error e ∧ o2 = .error e) ∨
    (∃ cs t1 t2, o1 = .ok (cs, t1) ∧ o2 = .ok (cs, t2) ∧ StRelC ctx t1 t2)

/-- Layer resolution against a faithful cache returns the very value a
fresh resolution produces, and keeps the store faithful. -/
theorem resolveLayer_cached_rel (ctx : Ctx) (path : RefId) {s sc : St}
    (hrel : StRelC ctx s sc) :
    OutRelC ctx (resolveLayer ctx path s) (resolveLayer ctx path sc) := by
  obtain ⟨hres, htr, hcn, c, hcc, hinv⟩ := hrel
  rw [resolveLayer_nocache hcn]
  conv_rhs => rw [resolveLayer]
  cases hfind : lookupLayer ctx.layout path with
  | none => exact Or.inl ⟨.unknownResource path, rfl, rfl⟩
  | some l =>
    simp only [hcc]
    cases hget : storeGet c.store path with
    | none =>
      by_cases hfu : 0 < futureUses (advanceSeq c.seq path) path
      · simp only [hget, hfu, if_pos]
        refine Or.inr ⟨retrieve ctx l, _, _, rfl, rfl, hres, by simp [htr],
          hcn, ⟨advanceSeq c.seq path,
            storeSet c.store path (retrieve ctx l)
              (futureUses (advanceSeq c.seq path) path)⟩, rfl, ?_⟩
        intro r v k hmem
        rcases mem_storeSet hmem with hold | hnew
        · exact hinv r v k hold
        · obtain ⟨rfl, rfl, rfl⟩ : r = path ∧ v = retrieve ctx l ∧
              k = futureUses (advanceSeq c.seq path) path := by
            injection hnew with h1 h2
            injection h2 with h2 h3
            exact ⟨h1, h2, h3⟩
          exact ⟨l, hfind, rfl⟩
      · simp only [hget, hfu, if_neg, if_false]
        exact Or.inr ⟨retrieve ctx l, _, _, rfl, rfl, hres, by simp [htr],
          hcn, ⟨advanceSeq c.seq path, c.store⟩, rfl, hinv⟩
    | some vk =>
      rcases vk with ⟨v, k⟩
      obtain ⟨l2, hfind2, hv⟩ := hinv path v k (storeGet_mem hget)
      have hl2 : l2 = l := by
        rw [hfind] at hfind2; injection hfind2 with h; exact h.symm
      rw [hl2] at hv
      clear hfind2 hl2
      cases k with
      | zero =>
        by_cases hfu : 0 < futureUses (advanceSeq c.seq path) path
        · simp only [hget, hfu, if_pos]
          refine Or.inr ⟨retrieve ctx l, _, _, rfl, rfl, hres, by simp [htr],
            hcn, ⟨advanceSeq c.seq path,
              storeSet c.store path (retrieve ctx l)
                (futureUses (advanceSeq c.seq path) path)⟩, rfl, ?_⟩
          intro r v2 k2 hmem
          rcases mem_storeSet hmem with hold | hnew
          · exact hinv r v2 k2 hold
          · obtain ⟨rfl, rfl, rfl⟩ : r = path ∧ v2 = retrieve ctx l ∧
                k2 = futureUses (advanceSeq c.seq path) path := by
              injection hnew with h1 h2
              injection h2 with h2 h3
              exact ⟨h1, h2, h3⟩
            exact ⟨l, hfind, rfl⟩
        · simp only [hget, hfu, if_neg, if_false]
          exact Or.inr ⟨retrieve ctx l, _, _, rfl, rfl, hres, by simp [htr],
            hcn, ⟨advanceSeq c.seq path, c.store⟩, rfl, hinv⟩
      | succ k2 =>
        simp only [hget]
        rw [hv]
        by_cases hk : k2 = 0
        · simp only [hk, if_pos]
          refine Or.inr ⟨retrieve ctx l, _, _, rfl, rfl, hres, by simp [htr],
            hcn, ⟨advanceSeq c.seq path, storeErase c.store path⟩, rfl, ?_⟩
          intro r v2 kk hmem
          exact hinv r v2 kk (mem_storeErase hmem)
        · simp only [hk, if_neg, if_false]
          refine Or.inr ⟨retrieve ctx l, _, _, rfl, rfl, hres, by simp [htr],
            hcn, ⟨advanceSeq c.seq path,
              storeSet c.store path (retrieve ctx l) k2⟩, rfl, ?_⟩
          intro r v2 kk hmem
          rcases mem_storeSet hmem with hold | hnew
          · exact hinv r v2 kk hold
          · obtain ⟨rfl, rfl, rfl⟩ : r = path ∧ v2 = retrieve ctx l ∧ kk = k2 := by
              injection hnew with h1 h2
              injection h2 with h2 h3
              exact ⟨h1, h2, h3⟩
            exact ⟨l, hfind, rfl⟩

/-- The central cache-transparency lemma: against a faithful cache,
evaluation produces exactly the same outcome (same errors, same cubes,
same results, same trace) as a cache-free pass over the same context,
and keeps the cache faithful. -/
theorem evalExpr_cache_rel (ctx : Ctx) :
    ∀ fuel (e : Expr) (a : Cube) (s sc : St), StRelC ctx s sc →
      OutRelC ctx (evalExpr fuel ctx a e s) (evalExpr fuel ctx a e sc) := by
  intro fuel
  induction fuel with
  | zero =>
    intro e a s sc _
    exact Or.inl ⟨.outOfFuel, rfl, rfl⟩
  | succ n ih =>
    have ihR : ∀ (rules : List (String × Expr)) (a : Cube) (s sc : St),
        StRelC ctx s sc →
        RulesRelC ctx
          (runRules (fun e2 s2x => evalExpr n ctx a e2 s2x) rules s)
          (runRules (fun e2 s2x => evalExpr n ctx a e2 s2x) rules sc) := by
      intro rules
      induction rules with
      | nil =>
        intro a s sc hs
        exact Or.inr ⟨[], s, sc, rfl, rfl, hs⟩
      | cons r rest ihr =>
        intro a s sc hs
        simp only [runRules]
        rcases ih r.2 a s sc hs with ⟨er, he1, he2⟩ | ⟨cb, t1, t2, ho1, ho2, ht⟩
        · simp only [he1, he2]
          exact Or.inl ⟨er, rfl, rfl⟩
        · simp only [ho1, ho2]
          rcases ihr a t1 t2 ht with ⟨er, he1, he2⟩ | ⟨cs, u1, u2, hr1, hr2, hu⟩
          · simp only [he1, he2]
            exact Or.inl ⟨er, rfl, rfl⟩
          · simp only [hr1, hr2]
            exact Or.inr ⟨cb :: cs, u1, u2, rfl, rfl, hu⟩
    intro e a s sc hs
    cases e with
    | self => exact Or.inr ⟨a, s, sc, rfl, rfl, hs⟩
    | result nm =>
      simp only [evalExpr]
      obtain ⟨hres, htr, hcn, c, hcc, hinv⟩ := hs
      rw [hres]
      cases hfd : s.results.find? (fun r => decide (r.1 = nm)) with
      | none => exact Or.inl ⟨.unknownResult nm, rfl, rfl⟩
      | some p =>
        exact Or.inr ⟨p.2, s, sc, rfl, rfl, hres, htr, hcn, c, hcc, hinv⟩
    | layer path =>
      simp only [evalExpr]
      exact resolveLayer_cached_rel ctx path hs
    | concept path prop =>
      simp only [evalExpr]
      cases hcr : conceptRules ctx.mapping path prop with
      | none => exact Or.inl ⟨.unknownConcept path, rfl, rfl⟩
      | some rules =>
        rcases ihR rules a s sc hs with ⟨er, he1, he2⟩ |
          ⟨cs, t1, t2, hr1, hr2, ht⟩
        · simp only [he1, he2]
          exact Or.inl ⟨er, rfl, rfl⟩
        · simp only [hr1, hr2]
          exact Or.inr ⟨andAll cs, t1, t2, rfl, rfl, ht⟩
    | evaluate chain op rhs =>
      simp only [evalExpr]
      rcases ih chain a s sc hs with ⟨er, he1, he2⟩ | ⟨cb, t1, t2, ho1, ho2, ht⟩
      · simp only [he1, he2]
        exact Or.inl ⟨er, rfl, rfl⟩
      · simp only [ho1, ho2]
        rcases ih rhs cb t1 t2 ht with ⟨er, he1, he2⟩ |
          ⟨bb, u1, u2, hb1, hb2, hu⟩
        · simp only [he1, he2]
          exact Or.inl ⟨er, rfl, rfl⟩
        · simp only [hb1, hb2]
          cases hchk : check op [cb.vtype, bb.vtype] [cb.labels, bb.labels] with
          | error er => exact Or.inl ⟨er, rfl, rfl⟩
          | ok ol =>
            rcases ol with ⟨oty, olbl⟩
            exact Or.inr ⟨_, u1, u2, rfl, rfl, hu⟩
    | evalConst chain op v vt =>
      simp only [evalExpr]
      rcases ih chain a s sc hs with ⟨er, he1, he2⟩ | ⟨cb, t1, t2, ho1, ho2, ht⟩
      · simp only [he1, he2]
        exact Or.inl ⟨er, rfl, rfl⟩
      · simp only [ho1, ho2]
        cases hchk : check op [cb.vtype, vt] [cb.labels, []] with
        | error er => exact Or.inl ⟨er, rfl, rfl⟩
        | ok ol =>
          rcases ol with ⟨oty, olbl⟩
          exact Or.inr ⟨_, t1, t2, rfl, rfl, ht⟩
    | reduce chain red =>
      simp only [evalExpr]
      rcases ih chain a s sc hs with ⟨er, he1, he2⟩ | ⟨cb, t1, t2, ho1, ho2, ht⟩
      · simp only [he1, he2]
        exact Or.inl ⟨er, rfl, rfl⟩
      · simp only [ho1, ho2]
        cases hchk : check red [cb.vtype] [cb.labels] with
        | error er => exact Or.inl ⟨er, rfl, rfl⟩
        | ok ol =>
          rcases ol with ⟨oty, olbl⟩
          exact Or.inr ⟨_, t1, t2, rfl, rfl, ht⟩


/-! ## Lifting the two central lemmas to whole recipe executions -/

/-- Outcomes of two cache-free recipe executions in lockstep. -/
abbrev EntRelI (o1 o2 : Except QError St) : Prop :=
  (∃ e, o1 = .error e ∧ o2 = .error e) ∨
    (∃ t1 t2, o1 = .ok t1 ∧ o2 = .ok t2 ∧ StRelI t1 t2)

/-- Outcomes of a cache-free and a cached recipe execution in
lockstep. -/
abbrev EntRelC (ctx : Ctx) (o1 o2 : Except QError St) : Prop :=
  (∃ e, o1 = .error e ∧ o2 = .error e) ∨
    (∃ t1 t2, o1 = .ok t1 ∧ o2 = .ok t2 ∧ StRelC ctx t1 t2)

theorem execEntries_extent_rel (ctx1 ctx2 : Ctx)
    (hl : ctx1.layout = ctx2.layout) (hm : ctx1.mapping = ctx2.mapping)
    (fuel : Nat) :
    ∀ (recipe : Recipe) (s1 s2 : St), StRelI s1 s2 →
      EntRelI (execEntries fuel ctx1 recipe s1)
        (execEntries fuel ctx2 recipe s2) := by
  intro recipe
  induction recipe with
  | nil =>
    intro s1 s2 hs
    exact Or.inr ⟨s1, s2, rfl, rfl, hs⟩
  | cons p rest ih =>
    intro s1 s2 hs
    rcases p with ⟨nm, e⟩
    simp only [execEntries]
    rcases evalExpr_extent_rel ctx1 ctx2 hl hm fuel e (extentCube ctx1.extent)
        (extentCube ctx2.extent) s1 s2 ⟨rfl, rfl⟩ hs with
      ⟨er, he1, he2⟩ | ⟨c1, t1, c2, t2, ho1, ho2, hc, ht⟩
    · simp only [he1, he2]
      exact Or.inl ⟨er, rfl, rfl⟩
    · simp only [ho1, ho2]
      refine ih _ _ ?_
      obtain ⟨htres, httr, htc1, htc2⟩ := ht
      exact ⟨List.rel_append htres
        (List.Forall₂.cons ⟨rfl, hc⟩ List.Forall₂.nil), httr, htc1, htc2⟩

theorem execEntries_cache_rel (ctx : Ctx) (fuel : Nat) :
    ∀ (recipe : Recipe) (s sc : St), StRelC ctx s sc →
      EntRelC ctx (execEntries fuel ctx recipe s)
        (execEntries fuel ctx recipe sc) := by
  intro recipe
  induction recipe with
  | nil =>
    intro s sc hs
    exact Or.inr ⟨s, sc, rfl, rfl, hs⟩
  | cons p rest ih =>
    intro s sc hs
    rcases p with ⟨nm, e⟩
    simp only [execEntries]
    rcases evalExpr_cache_rel ctx fuel e (extentCube ctx.extent) s sc hs with
      ⟨er, he1, he2⟩ | ⟨cb, t1, t2, ho1, ho2, ht⟩
    · simp only [he1, he2]
      exact Or.inl ⟨er, rfl, rfl⟩
    · simp only [ho1, ho2]
      refine ih _ _ ?_
      obtain ⟨htres, httr, htc, c, hcc, hinv⟩ := ht
      exact ⟨by rw [htres], httr, htc, c, hcc, hinv⟩

/-! ## State bookkeeping lemmas -/

/-- Every successful layer resolution leaves the computed results
untouched and appends exactly the resolved identity to the trace
(before resolving, duplicates included, order preserved). -/
theorem resolveLayer_ok_state {ctx : Ctx} {path : RefId} {s : St} {cb : Cube}
    {s2 : St} (h : resolveLayer ctx path s = .ok (cb, s2)) :
    s2.results = s.results ∧ s2.trace = s.trace ++ [path] := by
  unfold resolveLayer at h
  cases hfind : lookupLayer ctx.layout path with
  | none =>
    rw [hfind] at h
    exact Except.noConfusion h
  | some l =>
    rw [hfind] at h
    cases hc : s.cache with
    | none =>
      simp only [hc] at h
      injection h with h2
      injection h2 with h3 h4
      rw [← h4]
      exact ⟨rfl, rfl⟩
    | some c =>
      simp only [hc] at h
      cases hget : storeGet c.store path with
      | none =>
        simp only [hget] at h
        injection h with h2
        injection h2 with h3 h4
        rw [← h4]
        exact ⟨rfl, rfl⟩
      | some vk =>
        rcases vk with ⟨v, k⟩
        cases k with
        | zero =>
          simp only [hget] at h
          injection h with h2
          injection h2 with h3 h4
          rw [← h4]
          exact ⟨rfl, rfl⟩
        | succ k2 =>
          simp only [hget] at h
          injection h with h2
          injection h2 with h3 h4
          rw [← h4]
          exact ⟨rfl, rfl⟩

/-- Evaluating one processing chain never changes the set of already
computed results: only `execEntries` records a new result. -/
theorem evalExpr_results_eq :
    ∀ (fuel : Nat) (ctx : Ctx) (a : Cube) (e : Expr) (s : St) (cb : Cube)
      (s2 : St), evalExpr fuel ctx a e s = .ok (cb, s2) →
      s2.results = s.results := by
  intro fuel
  induction fuel with
  | zero =>
    intro ctx a e s cb s2 h
    exact Except.noConfusion h
  | succ n ih =>
    have ihR : ∀ (ctx : Ctx) (a : Cube) (rules : List (String × Expr)) (s : St)
        (cs : List Cube) (s2 : St),
        runRules (fun e2 s2x => evalExpr n ctx a e2 s2x) rules s = .ok (cs, s2) →
        s2.results = s.results := by
      intro ctx a rules
      induction rules with
      | nil =>
        intro s cs s2 h
        simp only [runRules] at h
        injection h with h2
        injection h2 with h3 h4
        rw [← h4]
      | cons r rest ihr =>
        intro s cs s2 h
        simp only [runRules] at h
        cases h1 : evalExpr n ctx a r.2 s with
        | error er =>
          simp only [h1] at h
          exact Except.noConfusion h
        | ok p =>
          rcases p with ⟨c1, t1⟩
          simp only [h1] at h
          cases h2 : runRules (fun e2 s2x => evalExpr n ctx a e2 s2x) rest t1 with
          | error er =>
            simp only [h2] at h
            exact Except.noConfusion h
          | ok q =>
            rcases q with ⟨cs1, t2⟩
            simp only [h2] at h
            injection h with h3
            injection h3 with h4 h5
            rw [← h5, ihr t1 cs1 t2 h2, ih ctx a r.2 s c1 t1 h1]
    intro ctx a e s cb s2 h
    cases e with
    | self =>
      simp only [evalExpr] at h
      injection h with h2
      injection h2 with h3 h4
      rw [← h4]
    | result nm =>
      simp only [evalExpr] at h
      cases hfd : s.results.find? (fun r => decide (r.1 = nm)) with
      | none =>
        simp only [hfd] at h
        exact Except.noConfusion h
      | some p =>
        simp only [hfd] at h
        injection h with h2
        injection h2 with h3 h4
        rw [← h4]
    | layer path =>
      simp only [evalExpr] at h
      exact (resolveLayer_ok_state h).1
    | concept path prop =>
      simp only [evalExpr] at h
      cases hcr : conceptRules ctx.mapping path prop with
      | none =>
        simp only [hcr] at h
        exact Except.noConfusion h
      | some rules =>
        simp only [hcr] at h
        cases h2 : runRules (fun e2 s2x => evalExpr n ctx a e2 s2x) rules s with
        | error er =>
          simp only [h2] at h
          exact Except.noConfusion h
        | ok q =>
          rcases q with ⟨cs1, t2⟩
          simp only [h2] at h
          injection h with h3
          injection h3 with h4 h5
          rw [← h5]
          exact ihR ctx a rules s cs1 t2 h2
    | evaluate chain op rhs =>
      simp only [evalExpr] at h
      cases h1 : evalExpr n ctx a chain s with
      | error er =>
        simp only [h1] at h
        exact Except.noConfusion h
      | ok p =>
        rcases p with ⟨c1, t1⟩
        simp only [h1] at h
        cases h2 : evalExpr n ctx c1 rhs t1 with
        | error er =>
          simp only [h2] at h
          exact Except.noConfusion h
        | ok q =>
          rcases q with ⟨b1, u1⟩
          simp only [h2] at h
          cases h3 : check op [c1.vtype, b1.vtype] [c1.labels, b1.labels] with
          | error er =>
            simp only [h3] at h
            exact Except.noConfusion h
          | ok ol =>
            rcases ol with ⟨oty, olbl⟩
            simp only [h3] at h
            injection h with h4
            injection h4 with h5 h6
            rw [← h6, ih ctx c1 rhs t1 b1 u1 h2, ih ctx a chain s c1 t1 h1]
    | evalConst chain op v vt =>
      simp only [evalExpr] at h
      cases h1 : evalExpr n ctx a chain s with
      | error er =>
        simp only [h1] at h
        exact Except.noConfusion h
      | ok p =>
        rcases p with ⟨c1, t1⟩
        simp only [h1] at h
        cases h3 : check op [c1.vtype, vt] [c1.labels, []] with
        | error er =>
          simp only [h3] at h
          exact Except.noConfusion h
        | ok ol =>
          rcases ol with ⟨oty, olbl⟩
          simp only [h3] at h
          injection h with h4
          injection h4 with h5 h6
          rw [← h6, ih ctx a chain s c1 t1 h1]
    | reduce chain red =>
      simp only [evalExpr] at h
      cases h1 : evalExpr n ctx a chain s with
      | error er =>
        simp only [h1] at h
        exact Except.noConfusion h
      | ok p =>
        rcases p with ⟨c1, t1⟩
        simp only [h1] at h
        cases h3 : check red [c1.vtype] [c1.labels] with
        | error er =>
          simp only [h3] at h
          exact Except.noConfusion h
        | ok ol =>
          rcases ol with ⟨oty, olbl⟩
          simp only [h3] at h
          injection h with h4
          injection h4 with h5 h6
          rw [← h6, ih ctx a chain s c1 t1 h1]

/-- Results are recorded in recipe order: after a successful prefix
execution, the names of the computed results are the prefix names, in
order, appended to whatever was already computed. -/
theorem execEntries_names (fuel : Nat) (ctx : Ctx) :
    ∀ (r1 : Recipe) (s0 s1 : St), execEntries fuel ctx r1 s0 = .ok s1 →
      s1.results.map Prod.fst = s0.results.map Prod.fst ++ r1.map Prod.fst := by
  intro r1
  induction r1 with
  | nil =>
    intro s0 s1 h
    simp only [execEntries] at h
    injection h with h2
    rw [← h2]
    simp
  | cons p rest ih =>
    intro s0 s1 h
    rcases p with ⟨nm, e⟩
    simp only [execEntries] at h
    cases h1 : evalExpr fuel ctx (extentCube ctx.extent) e s0 with
    | error er =>
      simp only [h1] at h
      exact Except.noConfusion h
    | ok q =>
      rcases q with ⟨cv, st⟩
      simp only [h1] at h
      have hnames := ih _ _ h
      have hres := evalExpr_results_eq fuel ctx _ e s0 cv st h1
      rw [hnames]
      simp [hres]

/-! ## Cell-level characterization of the concept AND -/

theorem andZip_getD (xs ys : List Int) (i : Nat) :
    (List.zipWith (fun x y => if x ≠ 0 ∧ y ≠ 0 then 1 else 0) xs ys).getD i 0 =
      if xs.getD i 0 ≠ 0 ∧ ys.getD i 0 ≠ 0 then (1 : Int) else 0 := by
  induction xs generalizing ys i with
  | nil => simp
  | cons x xs ih =>
    cases ys with
    | nil => simp
    | cons y ys =>
      cases i with
      | zero => simp [List.getD_cons_zero]
      | succ j =>
        simp only [List.zipWith_cons_cons, List.getD_cons_succ]
        exact ih ys j

theorem cubeAnd_getD (a b : Cube) (i : Nat) :
    (cubeAnd a b).values.getD i 0 =
      if a.values.getD i 0 ≠ 0 ∧ b.values.getD i 0 ≠ 0 then (1 : Int) else 0 :=
  andZip_getD a.values b.values i

theorem foldl_cubeAnd_ne_zero (rest : List Cube) :
    ∀ (acc : Cube) (i : Nat),
      ((rest.foldl cubeAnd acc).values.getD i 0 ≠ 0) ↔
        (acc.values.getD i 0 ≠ 0 ∧ ∀ cb ∈ rest, cb.values.getD i 0 ≠ 0) := by
  induction rest with
  | nil =>
    intro acc i
    simp
  | cons c rest ih =>
    intro acc i
    rw [List.foldl_cons, ih]
    rw [cubeAnd_getD]
    constructor
    · rintro ⟨hco, hrest⟩
      by_cases h1 : acc.values.getD i 0 ≠ 0 ∧ c.values.getD i 0 ≠ 0
      · refine ⟨h1.1, fun cb hcb => ?_⟩
        rcases List.mem_cons.mp hcb with rfl | hm
        · exact h1.2
        · exact hrest cb hm
      · rw [if_neg h1] at hco
        exact absurd rfl hco
    · rintro ⟨hacc, hall⟩
      have hc := hall c (List.mem_cons_self _ _)
      refine ⟨?_, fun cb hcb => hall cb (List.mem_cons_of_mem _ hcb)⟩
      rw [if_pos ⟨hacc, hc⟩]
      exact one_ne_zero

theorem foldl_cubeAnd_vtype (rest : List Cube) (hne : rest ≠ []) (acc : Cube) :
    (rest.foldl cubeAnd acc).vtype = ValueType.binary := by
  induction rest generalizing acc with
  | nil => exact absurd rfl hne
  | cons c rest ih =>
    rw [List.foldl_cons]
    cases rest with
    | nil => rfl
    | cons c2 rest2 => exact ih (by simp) _

/-! ## Symmetry of the compatible label union -/

theorem lookup_union_comm {d1 d2 : Labels} (h : hasConflict d1 d2 = false)
    (code : Nat) :
    (unionLabels d1 d2).lookup code = (unionLabels d2 d1).lookup code := by
  rcases h1 : d1.lookup code with _ | n1
  · rw [lookup_unionLabels_of_none h1 d2]
    rcases h2 : d2.lookup code with _ | n2
    · rw [lookup_unionLabels_of_none h2 d1, h1]
    · rw [lookup_unionLabels_of_some h2 d1]
  · rw [lookup_unionLabels_of_some h1 d2]
    rcases h2 : d2.lookup code with _ | n2
    · rw [lookup_unionLabels_of_none h2 d1, h1]
    · rw [lookup_unionLabels_of_some h2 d1]
      have hm1 := lookup_mem h1
      have hm2 := lookup_mem h2
      by_cases hne : n1 = n2
      · rw [hne]
      · have := (hasConflict_iff d1 d2).mpr ⟨code, n1, n2, hm1, hm2, hne⟩
        rw [h] at this
        exact Bool.noConfusion this

/-! ## Claim theorems -/

/-- C1 (cache transparency): for every recipe, context and fuel bound,
executing with the caching flag enabled produces exactly the same named
result values (indeed the same outcome, errors included) as executing
the same recipe with caching disabled; enabling caching can change only
the cache state and the number of data-source retrieval calls, and a
cache hit returns a value identical to a fresh resolution. -/
theorem claim_C1_cache_transparency (fuel : Nat) (ctx : Ctx)
    (recipe : Recipe) :
    executeQuery fuel ctx recipe true = executeQuery fuel ctx recipe false := by
  show executeCached fuel ctx recipe = execute fuel ctx recipe
  unfold executeCached execute
  rcases execEntries_extent_rel (previewCtx ctx) ctx rfl rfl fuel recipe
      (initSt none) (initSt none) ⟨List.Forall₂.nil, rfl, rfl, rfl⟩ with
    ⟨er, hp, hr⟩ | ⟨sp, sr, hp, hr, hrel⟩
  · simp only [hp, hr, Except.map]
  · simp only [hp, hr, Except.map]
    rcases execEntries_cache_rel ctx fuel recipe (initSt none)
        (initSt (some ⟨sp.trace, []⟩))
        ⟨rfl, rfl, rfl, ⟨sp.trace, []⟩, rfl,
          fun r v k hmem => absurd hmem (List.not_mem_nil _)⟩ with
      ⟨er, h1, h2⟩ | ⟨t1, t2, h1, h2, hrel2⟩
    · rw [hr] at h1
      exact Except.noConfusion h1
    · rw [hr] at h1
      injection h1 with h1e
      simp only [h2, Except.map]
      rw [hrel2.1, ← h1e]

/-- C10 (one-step caching workflow): executing with the caching context
flag performs exactly the manual two-step workflow of the demo — a
preview-mode pass, taking its resulting cache, and passing that cache
into a second full-resolution execution — and returns the same named
results. -/
theorem claim_C10_flag_equals_manual_two_step (fuel : Nat) (ctx : Ctx)
    (recipe : Recipe) :
    executeQuery fuel ctx recipe true = manualTwoStep fuel ctx recipe := by
  show executeCached fuel ctx recipe = manualTwoStep fuel ctx recipe
  unfold executeCached manualTwoStep previewRun
  cases h : execEntries fuel (previewCtx ctx) recipe (initSt none) with
  | error er => simp only [h, Except.map]
  | ok sp => simp only [h, Except.map]

/-- C3 (preview pass postcondition): the preview pass runs the full
interpreter over the extent coerced to a fixed 5 by 5 grid and records,
by appending each canonical layer identity before resolving (duplicates
included, order preserved), exactly the ordered list of layer
references the real pass requests: the preview trace equals the real
trace, both for a fresh real pass and for the cached real pass primed
with the recorded sequence. -/
theorem claim_C3_preview_postcondition (fuel : Nat) (ctx : Ctx)
    (recipe : Recipe) (sp sr : St)
    (hp : execEntries fuel (previewCtx ctx) recipe (initSt none) = .ok sp)
    (hr : execEntries fuel ctx recipe (initSt none) = .ok sr) :
    (previewCtx ctx).extent = 5 * 5 ∧
    sp.trace = sr.trace ∧
    (∃ src, execEntries fuel ctx recipe (initSt (some ⟨sp.trace, []⟩)) =
        .ok src ∧ src.trace = sr.trace) ∧
    (∀ (path : RefId) (s : St) (cb : Cube) (s2 : St),
      resolveLayer ctx path s = .ok (cb, s2) →
      s2.trace = s.trace ++ [path]) := by
  refine ⟨rfl, ?_, ?_, ?_⟩
  · rcases execEntries_extent_rel (previewCtx ctx) ctx rfl rfl fuel recipe
        (initSt none) (initSt none) ⟨List.Forall₂.nil, rfl, rfl, rfl⟩ with
      ⟨er, h1, h2⟩ | ⟨t1, t2, h1, h2, hrel⟩
    · rw [hp] at h1
      exact Except.noConfusion h1
    · rw [hp] at h1
      rw [hr] at h2
      injection h1 with h1e
      injection h2 with h2e
      rw [← h1e, ← h2e] at hrel
      exact hrel.2.1
  · rcases execEntries_cache_rel ctx fuel recipe (initSt none)
        (initSt (some ⟨sp.trace, []⟩))
        ⟨rfl, rfl, rfl, ⟨sp.trace, []⟩, rfl,
          fun r v k hmem => absurd hmem (List.not_mem_nil _)⟩ with
      ⟨er, h1, h2⟩ | ⟨t1, t2, h1, h2, hrel2⟩
    · rw [hr] at h1
      exact Except.noConfusion h1
    · rw [hr] at h1
      injection h1 with h1e
      refine ⟨t2, h2, ?_⟩
      rw [hrel2.2.1, ← h1e]
  · intro path s cb s2 h
    exact (resolveLayer_ok_state h).2

/-- A single-layer demo recipe. -/
def demoRecipeL : Recipe := [("b", Expr.layer ["reflectance", "s2_band02"])]

/-- The state after the preview pass of the demo layer recipe. -/
def spDemo : St :=
  ⟨[("b", ⟨[10, 20, 30, 40] ++ List.replicate 21 0, ValueType.continuous, []⟩)],
   none, [["reflectance", "s2_band02"]], 1⟩

/-- The state after the real pass of the demo layer recipe. -/
def srDemo : St :=
  ⟨[("b", ⟨[10, 20, 30, 40], ValueType.continuous, []⟩)],
   none, [["reflectance", "s2_band02"]], 1⟩

theorem claim_C3_witness :
    (execEntries 4 (previewCtx demoCtx) demoRecipeL (initSt none) =
      .ok spDemo) ∧
    (execEntries 4 demoCtx demoRecipeL (initSt none) = .ok srDemo) ∧
    (previewCtx demoCtx).extent = 5 * 5 ∧ spDemo.trace = srDemo.trace := by
  have hp : execEntries 4 (previewCtx demoCtx) demoRecipeL (initSt none) =
      .ok spDemo := by decide
  have hr : execEntries 4 demoCtx demoRecipeL (initSt none) = .ok srDemo := by
    decide
  have h := claim_C3_preview_postcondition 4 demoCtx demoRecipeL spDemo srDemo
    hp hr
  exact ⟨hp, hr, h.1, h.2.1⟩

/-- C2 (cache mechanics at layer resolution): with an active cache, a
stored identity with remaining-uses greater than zero returns the
retained value without a retrieval call, decrements the counter and
evicts exactly when it reaches zero; an uncached identity is retrieved
from the data source and stored, with the counter initialized to its
future-use count, if and only if that count is positive. -/
theorem claim_C2_cache_mechanics (ctx : Ctx) (path : RefId) (s : St)
    (c : Cache) (l : Layer) (hcc : s.cache = some c)
    (hfind : lookupLayer ctx.layout path = some l) :
    (∀ (v : Cube) (k : Nat), storeGet c.store path = some (v, Nat.succ k) →
      resolveLayer ctx path s = .ok (v,
        ⟨s.results,
         some ⟨advanceSeq c.seq path,
           if k = 0 then storeErase c.store path
           else storeSet c.store path v k⟩,
         s.trace ++ [path], s.fetches⟩) ∧
      storeGet (if k = 0 then storeErase c.store path
          else storeSet c.store path v k) path =
        (if k = 0 then none else some (v, k))) ∧
    (storeGet c.store path = none →
      resolveLayer ctx path s = .ok (retrieve ctx l,
        ⟨s.results,
         some ⟨advanceSeq c.seq path,
           if 0 < futureUses (advanceSeq c.seq path) path
           then storeSet c.store path (retrieve ctx l)
             (futureUses (advanceSeq c.seq path) path)
           else c.store⟩,
         s.trace ++ [path], s.fetches + 1⟩) ∧
      storeGet (if 0 < futureUses (advanceSeq c.seq path) path
          then storeSet c.store path (retrieve ctx l)
            (futureUses (advanceSeq c.seq path) path)
          else c.store) path =
        (if 0 < futureUses (advanceSeq c.seq path) path
         then some (retrieve ctx l, futureUses (advanceSeq c.seq path) path)
         else none)) := by
  constructor
  · intro v k hget
    constructor
    · simp only [resolveLayer, hfind, hcc, hget]
    · by_cases hk : k = 0
      · rw [if_pos hk, if_pos hk]
        exact storeGet_storeErase_self c.store path
      · rw [if_neg hk, if_neg hk]
        exact storeGet_storeSet_self c.store path v k
  · intro hget
    constructor
    · simp only [resolveLayer, hfind, hcc, hget]
    · by_cases hfu : 0 < futureUses (advanceSeq c.seq path) path
      · rw [if_pos hfu, if_pos hfu]
        exact storeGet_storeSet_self c.store path (retrieve ctx l) _
      · rw [if_neg hfu, if_neg hfu]
        exact hget

/-- A demo state carrying an active cache that retains the blue band
with two remaining uses. -/
def cachedStDemo : St :=
  ⟨[], some ⟨[["reflectance", "s2_band02"]],
      [(["reflectance", "s2_band02"],
        ⟨[10, 20, 30, 40], ValueType.continuous, []⟩, 2)]⟩, [], 0⟩

theorem claim_C2_witness :
    resolveLayer demoCtx ["reflectance", "s2_band02"] cachedStDemo =
      .ok (⟨[10, 20, 30, 40], ValueType.continuous, []⟩,
        ⟨[], some ⟨[],
            storeSet
              [(["reflectance", "s2_band02"],
                ⟨[10, 20, 30, 40], ValueType.continuous, []⟩, 2)]
              ["reflectance", "s2_band02"]
              ⟨[10, 20, 30, 40], ValueType.continuous, []⟩ 1⟩,
         [["reflectance", "s2_band02"]], 0⟩) := by
  have h := (claim_C2_cache_mechanics demoCtx ["reflectance", "s2_band02"]
    cachedStDemo
    ⟨[["reflectance", "s2_band02"]],
      [(["reflectance", "s2_band02"],
        ⟨[10, 20, 30, 40], ValueType.continuous, []⟩, 2)]⟩
    ⟨["reflectance", "s2_band02"], ValueType.continuous, [], [10, 20, 30, 40]⟩
    rfl (by decide)).1
    ⟨[10, 20, 30, 40], ValueType.continuous, []⟩ 1 (by decide)
  rw [h.1]
  decide

/-! ## Type-promoter case lemmas -/

theorem check_invalid {name : String} {itypes : List ValueType}
    (ilabels : List Labels)
    (hfe : findEntry (manualFor name) itypes = none) :
    check name itypes ilabels = .error (.invalidValueType name itypes) := by
  unfold check
  simp only [hfe]

theorem check_pair_conflict {name : String} {itypes : List ValueType}
    {oty : ValueType} {d1 d2 : Labels}
    (hfe : findEntry (manualFor name) itypes = some oty)
    (hcf : hasConflict d1 d2 = true) :
    check name itypes [d1, d2] = .error .labelConflict := by
  have hm : mergeLabelList [d1, d2] = .error .labelConflict := by
    show mergeLabels d1 d2 = _
    unfold mergeLabels
    rw [if_pos hcf]
  unfold check
  simp only [hfe, hm]

theorem check_pair_ok {name : String} {itypes : List ValueType}
    {oty : ValueType} {d1 d2 : Labels}
    (hfe : findEntry (manualFor name) itypes = some oty)
    (hcf : hasConflict d1 d2 = false) :
    check name itypes [d1, d2] = .ok (oty, unionLabels d1 d2) := by
  have hm : mergeLabelList [d1, d2] = .ok (unionLabels d1 d2) := by
    show mergeLabels d1 d2 = _
    unfold mergeLabels
    rw [if_neg (by simp [hcf])]
  unfold check
  simp only [hfe, hm]

/-- C4 (result references and evaluation order): results are computed
in recipe order and recorded under their names in that order; a Result
reference resolves exactly when the name is among the already computed
results of the current execution, and otherwise — in particular for a
forward reference to a result defined later in the recipe — the whole
execution fails with UnknownResultError. -/
theorem claim_C4_result_references (fuel : Nat) (ctx : Ctx) :
    (∀ (r1 : Recipe) (s0 s1 : St), execEntries fuel ctx r1 s0 = .ok s1 →
      s1.results.map Prod.fst = s0.results.map Prod.fst ++ r1.map Prod.fst) ∧
    (∀ (a : Cube) (nm : String) (s : St),
      (nm ∈ s.results.map Prod.fst →
        ∃ p, s.results.find? (fun r => decide (r.1 = nm)) = some p ∧
          p.1 = nm ∧
          evalExpr (fuel + 1) ctx a (Expr.result nm) s = .ok (p.2, s)) ∧
      (nm ∉ s.results.map Prod.fst →
        evalExpr (fuel + 1) ctx a (Expr.result nm) s =
          .error (.unknownResult nm))) ∧
    (∀ (r1 : Recipe) (nm nm2 : String) (r2 : Recipe) (s1 : St),
      execEntries (fuel + 1) ctx r1 (initSt none) = .ok s1 →
      nm2 ∉ r1.map Prod.fst →
      execute (fuel + 1) ctx (r1 ++ (nm, Expr.result nm2) :: r2) =
        .error (.unknownResult nm2)) := by
  refine ⟨execEntries_names fuel ctx, ?_, ?_⟩
  · intro a nm s
    constructor
    · intro hmem
      obtain ⟨p, hp, hpn⟩ := find_name_mem hmem
      exact ⟨p, hp, hpn, by simp only [evalExpr, hp]⟩
    · intro hnm
      have hfd := (find_name_none_iff s.results nm).mpr hnm
      simp only [evalExpr, hfd]
  · intro r1 nm nm2 r2 s1 h1 hnm
    unfold execute
    rw [execEntries_append]
    have hnames := execEntries_names (fuel + 1) ctx r1 _ _ h1
    have hnm2 : nm2 ∉ s1.results.map Prod.fst := by
      rw [hnames]
      simpa [initSt] using hnm
    have hfd := (find_name_none_iff s1.results nm2).mpr hnm2
    simp only [h1, execEntries, evalExpr, hfd, Except.map]

theorem claim_C4_witness :
    execute 4 demoCtx (demoRecipeL ++ [("c", Expr.result "zzz")]) =
      .error (.unknownResult "zzz") :=
  (claim_C4_result_references 3 demoCtx).2.2 demoRecipeL "c" "zzz" []
    srDemo (by decide) (by decide)

/-- C5 (default self value): resolving a Self reference returns the
current active evaluation object; at the top level of a processing
chain the interpreter supplies the spatio-temporal extent cube as the
default active object — a cube whose every element over the full
requested extent is 1. -/
theorem claim_C5_default_self (fuel : Nat) (ctx : Ctx) (a : Cube) (s : St)
    (nm : String) (rest : Recipe) (m : Nat) :
    evalExpr (fuel + 1) ctx a Expr.self s = .ok (a, s) ∧
    execEntries (fuel + 1) ctx ((nm, Expr.self) :: rest) s =
      execEntries (fuel + 1) ctx rest
        { s with results := s.results ++ [(nm, extentCube ctx.extent)] } ∧
    (extentCube m).values = List.replicate m 1 ∧
    (extentCube m).values.length = m := by
  refine ⟨rfl, rfl, rfl, by simp [extentCube]⟩

/-- C6 (type-violation abort): the type check runs before the verb
transformation — when the actual input types match no declared manual,
the check fails with InvalidValueTypeError naming the operator/reducer
and the offending input types, the verb application fails with that
error even though both operands evaluated, and the whole execution
aborts returning no partial results. -/
theorem claim_C6_type_violation_abort (fuel : Nat) (ctx : Ctx) :
    (∀ (op : String) (itypes : List ValueType) (ilabels : List Labels),
      findEntry (manualFor op) itypes = none →
      check op itypes ilabels = .error (.invalidValueType op itypes)) ∧
    (∀ (a a1 b1 : Cube) (chain rhs : Expr) (op : String) (s s1 s2 : St)
      (er : QError),
      evalExpr fuel ctx a chain s = .ok (a1, s1) →
      evalExpr fuel ctx a1 rhs s1 = .ok (b1, s2) →
      check op [a1.vtype, b1.vtype] [a1.labels, b1.labels] = .error er →
      evalExpr (fuel + 1) ctx a (Expr.evaluate chain op rhs) s = .error er) ∧
    (∀ (r1 : Recipe) (nm : String) (chain : Expr) (r2 : Recipe) (s1 : St)
      (er : QError),
      execEntries fuel ctx r1 (initSt none) = .ok s1 →
      evalExpr fuel ctx (extentCube ctx.extent) chain s1 = .error er →
      execute fuel ctx (r1 ++ (nm, chain) :: r2) = .error er) := by
  refine ⟨?_, ?_, ?_⟩
  · intro op itypes ilabels hfe
    exact check_invalid ilabels hfe
  · intro a a1 b1 chain rhs op s s1 s2 er h1 h2 h3
    simp only [evalExpr, h1, h2, h3]
  · intro r1 nm chain r2 s1 er h1 h2
    unfold execute
    rw [execEntries_append]
    simp only [h1, execEntries, h2, Except.map]

theorem claim_C6_witness :
    evalExpr 2 demoCtx (extentCube 4)
        (Expr.evaluate (Expr.layer ["appearance", "colortype"]) "and"
          Expr.self) (initSt none) =
      .error (.invalidValueType "and" [ValueType.ordinal,
        ValueType.ordinal]) :=
  (claim_C6_type_violation_abort 1 demoCtx).2.1 (extentCube 4)
    ⟨[29, 21, 4, 21], ValueType.ordinal, [(1, "SVHNIR"), (21, "DPWASH")]⟩
    ⟨[29, 21, 4, 21], ValueType.ordinal, [(1, "SVHNIR"), (21, "DPWASH")]⟩
    (Expr.layer ["appearance", "colortype"]) Expr.self "and" (initSt none)
    ⟨[], none, [["appearance", "colortype"]], 1⟩
    ⟨[], none, [["appearance", "colortype"]], 1⟩
    (.invalidValueType "and" [ValueType.ordinal, ValueType.ordinal])
    (by decide) (by decide) (by decide)

/-- C7 (symmetry of type promotion for commutative operators): for
every operator declared commutative, the manual matched for input types
A, B equals the one matched for B, A, and a successful check on
swapped inputs (with their label dictionaries swapped along) yields the
same output type and an output label dictionary equal as a finite map
(code-by-code lookup). -/
theorem claim_C7_commutative_check_symmetry (op : String)
    (hop : op ∈ commutativeOperators) (A B : ValueType) (d1 d2 : Labels) :
    findEntry (manualFor op) [A, B] = findEntry (manualFor op) [B, A] ∧
    (∀ (oty : ValueType) (olbl : Labels),
      check op [A, B] [d1, d2] = .ok (oty, olbl) →
      ∃ olbl2, check op [B, A] [d2, d1] = .ok (oty, olbl2) ∧
        ∀ code, olbl.lookup code = olbl2.lookup code) := by
  have hfe : findEntry (manualFor op) [A, B] =
      findEntry (manualFor op) [B, A] := by
    have hcases : op = "add" ∨ op = "multiply" ∨ op = "and" ∨ op = "or" ∨
        op = "equal" := by simpa [commutativeOperators] using hop
    rcases hcases with rfl | rfl | rfl | rfl | rfl <;> cases A <;> cases B <;>
      decide
  refine ⟨hfe, ?_⟩
  intro oty olbl hchk
  rcases hfa : findEntry (manualFor op) [A, B] with _ | oty0
  · rw [check_invalid [d1, d2] hfa] at hchk
    exact Except.noConfusion hchk
  · rcases hcf : hasConflict d1 d2 with _ | _
    · rw [check_pair_ok hfa hcf] at hchk
      injection hchk with hpair
      injection hpair with hty hlbl
      have hcf2 : hasConflict d2 d1 = false := by
        rw [hasConflict_symm d2 d1, hcf]
      have hfb : findEntry (manualFor op) [B, A] = some oty0 := by
        rw [← hfe, hfa]
      refine ⟨unionLabels d2 d1, ?_, ?_⟩
      · rw [check_pair_ok hfb hcf2, hty]
      · intro code
        rw [← hlbl]
        exact lookup_union_comm hcf code
    · rw [check_pair_conflict hfa hcf] at hchk
      exact Except.noConfusion hchk

theorem claim_C7_witness :
    findEntry (manualFor "add") [ValueType.discrete, ValueType.continuous] =
      findEntry (manualFor "add") [ValueType.continuous, ValueType.discrete] :=
  (claim_C7_commutative_check_symmetry "add" (by decide) ValueType.discrete
    ValueType.continuous [] []).1

/-- C8 (categorical label-dictionary merge): merging the label
dictionaries of two composed categorical cubes fails with the typed
label-conflict error exactly when the same integer code maps to
conflicting category names across the two inputs; when compatible, the
output dictionary is their union, looking up each code in the first
dictionary and then the second. -/
theorem claim_C8_label_dictionary_merge (d1 d2 : Labels) :
    (mergeLabels d1 d2 = .error .labelConflict ↔
      ∃ code n1 n2, (code, n1) ∈ d1 ∧ (code, n2) ∈ d2 ∧ n1 ≠ n2) ∧
    (∀ d, mergeLabels d1 d2 = .ok d →
      d = unionLabels d1 d2 ∧
      ∀ code, d.lookup code =
        ((d1.lookup code).orElse (fun _ => d2.lookup code))) := by
  constructor
  · rcases hcf : hasConflict d1 d2 with _ | _
    · constructor
      · intro hx
        unfold mergeLabels at hx
        rw [if_neg (by simp [hcf])] at hx
        exact Except.noConfusion hx
      · intro hex
        have hx := (hasConflict_iff d1 d2).mpr hex
        rw [hcf] at hx
        exact Bool.noConfusion hx
    · constructor
      · intro _
        exact (hasConflict_iff d1 d2).mp hcf
      · intro _
        unfold mergeLabels
        rw [if_pos hcf]
  · intro d hok
    unfold mergeLabels at hok
    rcases hcf : hasConflict d1 d2 with _ | _
    · rw [if_neg (by simp [hcf])] at hok
      injection hok with hd
      refine ⟨hd.symm, ?_⟩
      intro code
      rw [← hd]
      exact lookup_unionLabels d1 d2 code
    · rw [if_pos hcf] at hok
      exact Except.noConfusion hok

theorem claim_C8_witness :
    mergeLabels [(1, "a")] [(1, "b")] = .error .labelConflict :=
  (claim_C8_label_dictionary_merge [(1, "a")] [(1, "b")]).1.mpr
    ⟨1, "a", "b", by simp, by simp, by decide⟩

/-- C9 (concept resolution): a Concept reference whose path (or
requested property) has no matching mapping entry fails with
UnknownConceptError; with matching rules, the resolved cube is the
logical AND fold of the property cubes evaluated in order — nonzero at
a cell exactly when every property cube is nonzero there — and for a
concept with two or more properties the result is a binary cube. -/
theorem claim_C9_concept_resolution (fuel : Nat) (ctx : Ctx) (a : Cube) :
    (∀ (path : RefId) (prop : Option String) (s : St),
      conceptRules ctx.mapping path prop = none →
      evalExpr (fuel + 1) ctx a (Expr.concept path prop) s =
        .error (.unknownConcept path)) ∧
    (∀ (path : RefId) (prop : Option String) (s : St)
      (rules : List (String × Expr)) (cs : List Cube) (s2 : St),
      conceptRules ctx.mapping path prop = some rules →
      runRules (fun e2 s2x => evalExpr fuel ctx a e2 s2x) rules s =
        .ok (cs, s2) →
      evalExpr (fuel + 1) ctx a (Expr.concept path prop) s =
        .ok (andAll cs, s2)) ∧
    (∀ (c0 : Cube) (cs : List Cube) (i : Nat),
      ((andAll (c0 :: cs)).values.getD i 0 ≠ 0 ↔
        ∀ cb ∈ c0 :: cs, cb.values.getD i 0 ≠ 0)) ∧
    (∀ (cubes : List Cube), 2 ≤ cubes.length →
      (andAll cubes).vtype = ValueType.binary) := by
  refine ⟨?_, ?_, ?_, ?_⟩
  · intro path prop s hcr
    simp only [evalExpr, hcr]
  · intro path prop s rules cs s2 hcr hrun
    simp only [evalExpr, hcr, hrun]
  · intro c0 cs i
    show ((cs.foldl cubeAnd c0).values.getD i 0 ≠ 0 ↔ _)
    rw [foldl_cubeAnd_ne_zero]
    constructor
    · rintro ⟨h0, hall⟩ cb hcb
      rcases List.mem_cons.mp hcb with rfl | hm
      · exact h0
      · exact hall cb hm
    · intro hall
      exact ⟨hall c0 (List.mem_cons_self _ _),
        fun cb hcb => hall cb (List.mem_cons_of_mem _ hcb)⟩
  · intro cubes hlen
    cases cubes with
    | nil => simp at hlen
    | cons c0 rest =>
      cases rest with
      | nil => simp at hlen
      | cons c1 rest2 =>
        show (List.foldl cubeAnd c0 (c1 :: rest2)).vtype = _
        exact foldl_cubeAnd_vtype _ (by simp) _

theorem claim_C9_witness :
    evalExpr 2 demoCtx (extentCube 4)
        (Expr.concept ["entity", "rock"] none) (initSt none) =
      .error (.unknownConcept ["entity", "rock"]) :=
  (claim_C9_concept_resolution 1 demoCtx (extentCube 4)).1
    ["entity", "rock"] none (initSt none) (by decide)

end Semantique
